import Mathlib

/-!
Verification of the `wrig` front end: a shallow embedding of the Scanner
(`src/components/scanner.rs`) and the recursive-descent expression Parser
(`src/components/parser.rs`), together with the token and AST data model
(`token_components/token.rs`, `token_components/literal_type.rs`,
`parser_components/expr.rs`).

Modelling conventions:
* Rust `usize` indices and line counters are `Nat`.
* Rust `f64` literal values are modelled as exact rationals (`ℚ`): every
  numeric literal appearing in the statements below is a small integer,
  which `f64` represents exactly, so no rounding behaviour is observable.
* Rust `Option::unwrap` on `None` and out-of-bounds indexing are panics;
  they are modelled as explicit outcomes (`none` for scanner helpers,
  dedicated constructors `oob` / `unwrapNone` for the parser) so that
  safety claims can be stated.
* Loops (`while` in Rust) are modelled with a fuel parameter so that all
  definitions are structurally recursive and kernel-computable.  Every
  wrapper instantiates the fuel with a provably sufficient bound
  (`source.length + 1` for the scanner, `12 * tokens.length + 13` for the
  parser); theorems about loop bodies carry the corresponding fuel
  hypothesis, discharged at those bounds.

The `TokenType` enum itself is declared in a module that is not part of
the sources (only a superseded draft `token_type.rs` is); its variants are
reconstructed exactly from their uses in `scanner.rs` / `parser.rs` and
the data-model section of the specification.  Note `Str` is the Rust
variant name used by the scanner/parser sources (`TokenType::Str`).
-/

/-- TokenType: the closed set of token categories, as used by
`scanner.rs` (which constructs all of them except `Bang`, `Less`,
`Greater`) and `parser.rs` (which matches on `Bang`, `Less`, `Greater`,
`Minus`, `Plus`, `Slash`, `Star`, the comparison/equality operators and
the literal categories). -/
inductive TokenType where
  | LeftParen | RightParen | LeftBrace | RightBrace
  | Comma | Dot | Minus | Plus | Semicolon | Star | Slash
  | Bang | BangEqual | Equal | EqualEqual
  | Greater | GreaterEqual | Less | LessEqual
  | Identifier | Str | Number
  | And | Class | Else | False | Fun | For | If | Nil | Or
  | Print | Return | Super | This | True | Var | While
  | EOF
deriving DecidableEq

/-- LiteralType from `token_components/literal_type.rs`; `Number` carries
a rational standing for the Rust `f64` (exact on the integral values the
claims exercise). -/
inductive LiteralType where
  | Str (s : String)
  | Number (n : ℚ)
  | Bool (b : Bool)
  | Nil
deriving DecidableEq

/-- Token from `token_components/token.rs`. -/
structure Token where
  token : TokenType
  line : Nat
  lexeme : String
  literal : Option LiteralType
deriving DecidableEq

/-- ScannerError from `scanner.rs`. -/
inductive ScannerError where
  | UnexpectedEof
  | UnterminatedString (line : Nat)
  | InvalidNumber (received : String) (line : Nat)
  | UnexpectedToken (lexeme : String) (line : Nat)
deriving DecidableEq

/-- The Scanner struct's mutable state (`scanner.rs`): source as a vector
of chars, accumulated tokens and errors, `start`/`current` cursors, and
the 1-based `line` counter. -/
structure ScanState where
  source : List Char
  tokens : List Token
  start : Nat
  current : Nat
  line : Nat
  errors : List ScannerError
deriving DecidableEq

/-- Scanner `is_at_end`: `current >= source.len()`. -/
def isAtEndS (st : ScanState) : Bool := st.source.length ≤ st.current

/-- Scanner `peek`: `None` at end of input, else the char at `current`. -/
def peekS (st : ScanState) : Option Char :=
  if st.source.length ≤ st.current then none else st.source[st.current]?

/-- Scanner `peek_next`: the char at `current + 1` (no at-end guard in the
source). -/
def peekNextS (st : ScanState) : Option Char := st.source[st.current + 1]?

/-- Scanner `advance`: returns the current char and increments `current`;
`None` (no state change) at end of input. -/
def advanceS (st : ScanState) : ScanState × Option Char :=
  match peekS st with
  | none => (st, none)
  | some ch => ({ st with current := st.current + 1 }, some ch)

/-- Scanner `conditional_advance`.  NOTE (faithful to the source, contrary
to its own doc comment): whenever a current character exists, `current`
is incremented *regardless* of whether it matches `test`. -/
def conditionalAdvance (st : ScanState) (test : Char) : ScanState × Bool :=
  if st.source.length ≤ st.current then (st, false)
  else
    match peekS st with
    | some ch => ({ st with current := st.current + 1 }, ch = test)
    | none => (st, false)

/-- Scanner `current_char_test`. -/
def currentCharTest (st : ScanState) (p : Char → Bool) : Bool :=
  match peekS st with
  | some ch => p ch
  | none => false

/-- Scanner `next_char_test`. -/
def nextCharTest (st : ScanState) (p : Char → Bool) : Bool :=
  match peekNextS st with
  | some ch => p ch
  | none => false

/-- Scanner `get_source_slice`: the chars in `[a, b)` as a `String`. -/
def getSourceSlice (st : ScanState) (a b : Nat) : String :=
  String.mk ((st.source.drop a).take (b - a))

/-- Scanner `add_token`: push a token whose lexeme is the slice
`[start, current)` and whose line is the *current* value of the line
counter. -/
def addTokenS (st : ScanState) (tt : TokenType) (lit : Option LiteralType) : ScanState :=
  { st with tokens := st.tokens ++
      [{ token := tt, line := st.line, lexeme := getSourceSlice st st.start st.current,
         literal := lit }] }

/-- The `while` loop of `add_identifier_token`: consume a maximal run of
ASCII alphanumeric characters.  NOTE (faithful to the source): `_` is
*not* accepted by this loop, only by the identifier-start dispatch. -/
def identLoop : Nat → ScanState → ScanState
  | 0, st => st
  | f+1, st =>
    if currentCharTest st (fun c => c.isAlphanum) then
      identLoop f { st with current := st.current + 1 }
    else st

/-- The digit-run `while` loops of `add_number_token`. -/
def digitLoop : Nat → ScanState → ScanState
  | 0, st => st
  | f+1, st =>
    if currentCharTest st (fun c => c.isDigit) then
      digitLoop f { st with current := st.current + 1 }
    else st

/-- The comment-skipping `while` loop in `scan_token`'s `//` arm: consume
up to, but not including, the next newline. -/
def commentLoop : Nat → ScanState → ScanState
  | 0, st => st
  | f+1, st =>
    if (!isAtEndS st) && !(currentCharTest st (fun c => c = '\n')) then
      commentLoop f { st with current := st.current + 1 }
    else st

/-- The string-body `while` loop of `add_string_token`: consume until a
closing quote or end of input, incrementing `line` on each newline. -/
def stringLoop : Nat → ScanState → ScanState
  | 0, st => st
  | f+1, st =>
    if !(currentCharTest st (fun c => c = '"')) && !(isAtEndS st) then
      stringLoop f
        (let st' := if currentCharTest st (fun c => c = '\n')
                    then { st with line := st.line + 1 } else st
         { st' with current := st'.current + 1 })
    else st

/-- The keyword table of `add_identifier_token`. -/
def keywordLookup (s : String) : TokenType :=
  if s = "and" then .And
  else if s = "class" then .Class
  else if s = "else" then .Else
  else if s = "true" then .True
  else if s = "false" then .False
  else if s = "for" then .For
  else if s = "fun" then .Fun
  else if s = "if" then .If
  else if s = "nil" then .Nil
  else if s = "or" then .Or
  else if s = "print" then .Print
  else if s = "return" then .Return
  else if s = "super" then .Super
  else if s = "this" then .This
  else if s = "var" then .Var
  else if s = "while" then .While
  else .Identifier

/-- Scanner `add_identifier_token`. -/
def addIdentifierToken (f : Nat) (st : ScanState) : ScanState :=
  let st1 := identLoop f st
  addTokenS st1 (keywordLookup (getSourceSlice st1 st1.start st1.current)) none

/-- Scanner `add_string_token`: on end of input, an `UnterminatedString`
error carrying the *current* line (after embedded-newline increments) and
no token; otherwise consume the closing quote and emit a `Str` token whose
literal is the text strictly between the quotes. -/
def addStringToken (f : Nat) (st : ScanState) : ScanState × Option ScannerError :=
  let st1 := stringLoop f st
  if isAtEndS st1 then (st1, some (.UnterminatedString st1.line))
  else
    let st2 := (advanceS st1).1
    let value := getSourceSlice st2 (st2.start + 1) (st2.current - 1)
    (addTokenS st2 .Str (some (.Str value)), none)

/-- Conversion of a digit run to a natural number. -/
def digitsToNat (cs : List Char) : Nat :=
  cs.foldl (fun a c => a * 10 + (c.toNat - 48)) 0

/-- Model of Rust `str::parse::<f64>` restricted to the lexeme shapes the
scanner's number rule can produce (a nonempty digit run, optionally
followed by `.` and a digit run), with exact rational arithmetic in place
of IEEE rounding; every other shape is rejected.  On the integral values
appearing in the claims this agrees exactly with `f64`. -/
def numParse (cs : List Char) : Option ℚ :=
  let ip := cs.takeWhile (fun c => c.isDigit)
  let rest := cs.drop ip.length
  if ip = [] then none
  else
    match rest with
    | [] => some ((digitsToNat ip : ℚ))
    | '.' :: fp =>
      if fp ≠ [] ∧ fp.all (fun c => c.isDigit) then
        some ((digitsToNat ip : ℚ) + (digitsToNat fp : ℚ) / (10 : ℚ) ^ fp.length)
      else none
    | _ => none

/-- Scanner `add_number_token`: a maximal digit run, then a fractional
part only when a `.` is followed by a further digit, then float parsing
of the whole lexeme (an `InvalidNumber` error if that fails). -/
def addNumberToken (f : Nat) (st : ScanState) : ScanState × Option ScannerError :=
  let st1 := digitLoop f st
  let st2 :=
    if currentCharTest st1 (fun c => c = '.') && nextCharTest st1 (fun c => c.isDigit) then
      digitLoop f { st1 with current := st1.current + 1 }
    else st1
  let lexeme := getSourceSlice st2 st2.start st2.current
  match numParse lexeme.toList with
  | none => (st2, some (.InvalidNumber lexeme st2.line))
  | some q => (addTokenS st2 .Number (some (.Number q)), none)

/-- Scanner `scan_token`: consume one character and classify it,
reproducing the source's `match` arms in order, including the
side effects of failed `conditional_advance` guards (a failed guard has
already advanced `current`, and for `!`, `<`, `>` the match then falls
through to the catch-all `UnexpectedToken` arm, there being no
one-character arm for them; for `=` it falls through to the bare `=`
arm, whose lexeme then spans both consumed characters). -/
def scanToken (st : ScanState) : ScanState × Option ScannerError :=
  let fl := st.source.length + 1
  match advanceS st with
  | (st0, none) => (st0, some .UnexpectedEof)
  | (st1, some c) =>
    if c = '(' then (addTokenS st1 .LeftParen none, none)
    else if c = ')' then (addTokenS st1 .RightParen none, none)
    else if c = '{' then (addTokenS st1 .LeftBrace none, none)
    else if c = '}' then (addTokenS st1 .RightBrace none, none)
    else if c = ',' then (addTokenS st1 .Comma none, none)
    else if c = '.' then (addTokenS st1 .Dot none, none)
    else if c = '-' then (addTokenS st1 .Minus none, none)
    else if c = '+' then (addTokenS st1 .Plus none, none)
    else if c = ';' then (addTokenS st1 .Semicolon none, none)
    else if c = '*' then (addTokenS st1 .Star none, none)
    else if c = '=' then
      let p := conditionalAdvance st1 '='
      if p.2 then (addTokenS p.1 .EqualEqual none, none)
      else (addTokenS p.1 .Equal none, none)
    else if c = '!' then
      let p := conditionalAdvance st1 '='
      if p.2 then (addTokenS p.1 .BangEqual none, none)
      else (p.1, some (.UnexpectedToken (String.mk [c]) p.1.line))
    else if c = '<' then
      let p := conditionalAdvance st1 '='
      if p.2 then (addTokenS p.1 .LessEqual none, none)
      else (p.1, some (.UnexpectedToken (String.mk [c]) p.1.line))
    else if c = '>' then
      let p := conditionalAdvance st1 '='
      if p.2 then (addTokenS p.1 .GreaterEqual none, none)
      else (p.1, some (.UnexpectedToken (String.mk [c]) p.1.line))
    else if c = '/' then
      let p := conditionalAdvance st1 '/'
      if p.2 then (commentLoop fl p.1, none)
      else (addTokenS p.1 .Slash none, none)
    else if c = '"' then addStringToken fl st1
    else if c.isDigit then addNumberToken fl st1
    else if c.isAlpha || c = '_' then (addIdentifierToken fl st1, none)
    else if c = ' ' ∨ c = '\r' ∨ c = '\t' then (st1, none)
    else if c = '\n' then ({ st1 with line := st1.line + 1 }, none)
    else (st1, some (.UnexpectedToken (String.mk [c]) st1.line))

/-- The `while !self.is_at_end()` loop of `scan_tokens`: set
`start := current`, scan one lexeme, and push any error. -/
def scanTokensLoop : Nat → ScanState → ScanState
  | 0, st => st
  | f+1, st =>
    if st.source.length ≤ st.current then st
    else
      let r := scanToken { st with start := st.current }
      let st2 := match r.2 with
        | some e => { r.1 with errors := r.1.errors ++ [e] }
        | none => r.1
      scanTokensLoop f st2

/-- The lexeme of the synthetic end-of-input token: a single NUL char. -/
def eofLexeme : String := String.mk [Char.ofNat 0]

/-- Scanner `scan_tokens` on a full source string: run the scan loop from
the initial state (`line = 1`), then append the single `EOF` token whose
line is the final value of the line counter.  Returns the token and error
sequences. -/
def scanTokens (source : String) : List Token × List ScannerError :=
  let st0 : ScanState :=
    { source := source.toList, tokens := [], start := 0, current := 0, line := 1, errors := [] }
  let stf := scanTokensLoop (st0.source.length + 1) st0
  (stf.tokens ++ [{ token := .EOF, line := stf.line, lexeme := eofLexeme, literal := none }],
   stf.errors)

/-- ParserError from `parser.rs`.  (The Rust `UnexpectedToken` and
`UndefinedLiteral` variants are declared but never constructed by the
parser's code paths.) -/
inductive ParserError where
  | UnexpectedToken (found : Token) (expected : Token) (line : Nat)
  | ParseError (message : String)
  | PrimaryError (line : Nat)
  | UndefinedLiteral (line : Nat)
deriving DecidableEq

/-- Expr from `parser_components/expr.rs`. -/
inductive Expr where
  | Binary (left : Expr) (op : Token) (right : Expr)
  | Grouping (inner : Expr)
  | Literal (value : LiteralType)
  | Unary (op : Token) (operand : Expr)
deriving DecidableEq

/-- Outcome of running a parser routine.  `ok` and `err` are the Rust
`Result` cases; `oob` models a panic from an out-of-bounds cursor access
(`peek` past the end, or `previous` with `current == 0`, whose `usize`
subtraction underflows); `unwrapNone` models the
`literal.clone().unwrap()` panic in `primary`; `nofuel` is fuel
exhaustion of the embedding (proved unreachable at the wrapper's fuel). -/
inductive POut (α : Type) where
  | ok (a : α)
  | err (e : ParserError)
  | oob
  | unwrapNone
  | nofuel
deriving DecidableEq

/-- Parser `peek`: the token at `current`; `none` models the
out-of-bounds panic. -/
def peekT (ts : List Token) (c : Nat) : Option Token := ts[c]?

/-- Parser `previous`: the token at `current - 1`; at `current = 0` the
`usize` subtraction underflows and the access panics (`none`). -/
def previousT (ts : List Token) (c : Nat) : Option Token :=
  if c = 0 then none else ts[c - 1]?

/-- Parser `is_at_end`: whether `peek`'s kind is `EOF`. -/
def isAtEndT (ts : List Token) (c : Nat) : Option Bool :=
  match peekT ts c with
  | none => none
  | some t => some (decide (t.token = .EOF))

/-- Parser `advance`: increment `current` unless at end, then return
`previous`. -/
def advanceT (ts : List Token) (c : Nat) : Option (Token × Nat) :=
  match isAtEndT ts c with
  | none => none
  | some b =>
    let c' := if b then c else c + 1
    match previousT ts c' with
    | none => none
    | some t => some (t, c')

/-- Parser `current_eq`: `false` at end, else compare the current token's
kind. -/
def currentEqT (ts : List Token) (c : Nat) (tt : TokenType) : Option Bool :=
  match isAtEndT ts c with
  | none => none
  | some true => some false
  | some false =>
    match peekT ts c with
    | none => none
    | some t => some (decide (t.token = tt))

/-- Parser `match_token_type`: try each kind in order; on the first hit,
`advance` and report `true` with the new cursor; otherwise `false` with
the cursor unchanged. -/
def matchTT (ts : List Token) (c : Nat) : List TokenType → Option (Bool × Nat)
  | [] => some (false, c)
  | tt :: rest =>
    match currentEqT ts c tt with
    | none => none
    | some true =>
      match advanceT ts c with
      | none => none
      | some (_, c') => some (true, c')
    | some false => matchTT ts c rest

/-- Parser `consume`.  NOTE (faithful to the source): `match_token_type`
has *already advanced* past the expected token when it reports a hit, and
`consume` then calls `advance` again, consuming one extra token. -/
def consumeT (ts : List Token) (c : Nat) (tt : TokenType) (msg : String) :
    Option (Except ParserError (Token × Nat)) :=
  match matchTT ts c [tt] with
  | none => none
  | some (true, c1) =>
    match advanceT ts c1 with
    | none => none
    | some (t, c2) => some (.ok (t, c2))
  | some (false, _) => some (.error (.ParseError msg))

/-- The grammar procedures of `parser.rs`, collapsed into one
fuel-indexed function so that the mutual recursion
(`expression → equality → … → primary → expression`, plus the iterative
binary-operator loops) is structural in the fuel.  The `…Loop` rules are
the bodies of the Rust `while self.match_token_type(..)` loops, carrying
the expression accumulated so far. -/
inductive Rule where
  | expr
  | eq
  | eqLoop (e : Expr)
  | cmp
  | cmpLoop (e : Expr)
  | term
  | termLoop (e : Expr)
  | factor
  | factorLoop (e : Expr)
  | unary
  | primary

/-- One step of the recursive-descent parser: run grammar rule `r` at
cursor `c` over the token list `ts`. -/
def runRule (ts : List Token) : Nat → Rule → Nat → POut (Expr × Nat)
  | 0, _, _ => .nofuel
  | f+1, r, c =>
    match r with
    | .expr => runRule ts f .eq c
    | .eq =>
      match runRule ts f .cmp c with
      | .ok (e, c1) => runRule ts f (.eqLoop e) c1
      | o => o
    | .eqLoop e =>
      match matchTT ts c [.BangEqual, .EqualEqual] with
      | none => .oob
      | some (true, c1) =>
        match previousT ts c1 with
        | none => .oob
        | some op =>
          match runRule ts f .cmp c1 with
          | .ok (r', c2) => runRule ts f (.eqLoop (.Binary e op r')) c2
          | o => o
      | some (false, c1) => .ok (e, c1)
    | .cmp =>
      match runRule ts f .term c with
      | .ok (e, c1) => runRule ts f (.cmpLoop e) c1
      | o => o
    | .cmpLoop e =>
      match matchTT ts c [.Greater, .GreaterEqual, .Less, .LessEqual] with
      | none => .oob
      | some (true, c1) =>
        match previousT ts c1 with
        | none => .oob
        | some op =>
          match runRule ts f .term c1 with
          | .ok (r', c2) => runRule ts f (.cmpLoop (.Binary e op r')) c2
          | o => o
      | some (false, c1) => .ok (e, c1)
    | .term =>
      match runRule ts f .factor c with
      | .ok (e, c1) => runRule ts f (.termLoop e) c1
      | o => o
    | .termLoop e =>
      match matchTT ts c [.Minus, .Plus] with
      | none => .oob
      | some (true, c1) =>
        match previousT ts c1 with
        | none => .oob
        | some op =>
          match runRule ts f .factor c1 with
          | .ok (r', c2) => runRule ts f (.termLoop (.Binary e op r')) c2
          | o => o
      | some (false, c1) => .ok (e, c1)
    | .factor =>
      match runRule ts f .unary c with
      | .ok (e, c1) => runRule ts f (.factorLoop e) c1
      | o => o
    | .factorLoop e =>
      match matchTT ts c [.Slash, .Star] with
      | none => .oob
      | some (true, c1) =>
        match previousT ts c1 with
        | none => .oob
        | some op =>
          match runRule ts f .unary c1 with
          | .ok (r', c2) => runRule ts f (.factorLoop (.Binary e op r')) c2
          | o => o
      | some (false, c1) => .ok (e, c1)
    | .unary =>
      match matchTT ts c [.Bang, .Minus] with
      | none => .oob
      | some (true, c1) =>
        match previousT ts c1 with
        | none => .oob
        | some op =>
          match runRule ts f .unary c1 with
          | .ok (r', c2) => .ok (.Unary op r', c2)
          | o => o
      | some (false, c1) => runRule ts f .primary c1
    | .primary =>
      match matchTT ts c [.False] with
      | none => .oob
      | some (true, c1) => .ok (.Literal (.Bool false), c1)
      | some (false, c1) =>
        match matchTT ts c1 [.True] with
        | none => .oob
        | some (true, c2) => .ok (.Literal (.Bool true), c2)
        | some (false, c2) =>
          match matchTT ts c2 [.Nil] with
          | none => .oob
          | some (true, c3) => .ok (.Literal .Nil, c3)
          | some (false, c3) =>
            match matchTT ts c3 [.Number, .Str] with
            | none => .oob
            | some (true, c4) =>
              match previousT ts c4 with
              | none => .oob
              | some t =>
                match t.literal with
                | some l => .ok (.Literal l, c4)
                | none => .unwrapNone
            | some (false, c4) =>
              match matchTT ts c4 [.LeftParen] with
              | none => .oob
              | some (true, c5) =>
                match runRule ts f .expr c5 with
                | .ok (e, c6) =>
                  match consumeT ts c6 .RightParen "Expected ')' after expression" with
                  | none => .oob
                  | some (.ok (_, c7)) => .ok (.Grouping e, c7)
                  | some (.error pe) => .err pe
                | o => o
              | some (false, c5) =>
                match peekT ts c5 with
                | none => .oob
                | some t => .err (.PrimaryError t.line)

/-- Parser `parse` (i.e. `expression` from `current = 0`), at a fuel that
provably suffices for any EOF-terminated token sequence. -/
def parse (ts : List Token) : POut Expr :=
  match runRule ts (12 * ts.length + 13) .expr 0 with
  | .ok (e, _) => .ok e
  | .err e => .err e
  | .oob => .oob
  | .unwrapNone => .unwrapNone
  | .nofuel => .nofuel

/-- Decimal representation of an integer (for rendering). -/
def intRepr (i : Int) : String :=
  match i with
  | .ofNat n => Nat.repr n
  | .negSucc n => "-" ++ Nat.repr (n + 1)

/-- Rendering of a number literal, modelling Rust's `Display` for `f64`
on the values the claims exercise: an integral value prints as a plain
integer with no decimal point.  (Non-integral values, which no claim
renders, are given an unspecified marker form; Rust would print a
shortest round-trip decimal.) -/
def renderNum (q : ℚ) : String :=
  if q.den = 1 then intRepr q.num
  else intRepr q.num ++ "/" ++ Nat.repr q.den

/-- Display for `LiteralType` (`literal_type.rs`). -/
def renderLit : LiteralType → String
  | .Str s => s
  | .Number n => renderNum n
  | .Bool b => if b then "true" else "false"
  | .Nil => "nil"

/-- Display for `Expr` (`expr.rs`): operators render as their lexemes
(Display for `Token` prints `self.lexeme`). -/
def renderExpr : Expr → String
  | .Binary l op r => "(" ++ op.lexeme ++ " " ++ renderExpr l ++ " " ++ renderExpr r ++ ")"
  | .Grouping e => "(group " ++ renderExpr e ++ ")"
  | .Literal v => renderLit v
  | .Unary op r => "(" ++ op.lexeme ++ " " ++ renderExpr r ++ ")"

/-- Claim C1 (refuted by the code): at `"<5"` the scanner does *not* emit
a one-character `Less` token — `conditional_advance` consumes the `5`
even though it is not `=`, and the match then falls to the catch-all
error arm; at `"=5"` the bare-`=` arm fires but its lexeme spans both
consumed characters.  This theorem evaluates the scanner at both
inputs. -/
theorem c1_one_char_operator_eval :
    scanTokens "<5" =
      ([{ token := .EOF, line := 1, lexeme := eofLexeme, literal := none }],
       [.UnexpectedToken "<" 1])
  ∧ scanTokens "=5" =
      ([{ token := .Equal, line := 1, lexeme := "=5", literal := none },
        { token := .EOF, line := 1, lexeme := eofLexeme, literal := none }],
       []) := by
  constructor <;> decide

/-- Claim C2 (refuted by the code): on the tokens of `"(1) + 2"` the
parser returns the bare grouping `(group 1)` — `consume` advances a
second time after `match_token_type` already consumed the `)`, so the
`+` is swallowed and the trailing `2` is never folded into a `Binary`
node.  The first conjunct fixes the token sequence as the scan of
`"(1) + 2"`; the last conjunct refutes the claimed `Binary` result. -/
theorem c2_grouping_consume_eval :
    scanTokens "(1) + 2" =
      ([{ token := .LeftParen, line := 1, lexeme := "(", literal := none },
        { token := .Number, line := 1, lexeme := "1", literal := some (.Number 1) },
        { token := .RightParen, line := 1, lexeme := ")", literal := none },
        { token := .Plus, line := 1, lexeme := "+", literal := none },
        { token := .Number, line := 1, lexeme := "2", literal := some (.Number 2) },
        { token := .EOF, line := 1, lexeme := eofLexeme, literal := none }],
       [])
  ∧ parse
      [{ token := .LeftParen, line := 1, lexeme := "(", literal := none },
       { token := .Number, line := 1, lexeme := "1", literal := some (.Number 1) },
       { token := .RightParen, line := 1, lexeme := ")", literal := none },
       { token := .Plus, line := 1, lexeme := "+", literal := none },
       { token := .Number, line := 1, lexeme := "2", literal := some (.Number 2) },
       { token := .EOF, line := 1, lexeme := eofLexeme, literal := none }] =
      .ok (.Grouping (.Literal (.Number 1)))
  ∧ parse
      [{ token := .LeftParen, line := 1, lexeme := "(", literal := none },
       { token := .Number, line := 1, lexeme := "1", literal := some (.Number 1) },
       { token := .RightParen, line := 1, lexeme := ")", literal := none },
       { token := .Plus, line := 1, lexeme := "+", literal := none },
       { token := .Number, line := 1, lexeme := "2", literal := some (.Number 2) },
       { token := .EOF, line := 1, lexeme := eofLexeme, literal := none }] ≠
      .ok (.Binary (.Grouping (.Literal (.Number 1)))
            { token := .Plus, line := 1, lexeme := "+", literal := none }
            (.Literal (.Number 2))) := by
  refine ⟨by decide, by decide, by decide⟩

/-- Claim C3 (confirmed): precedence and left-associativity.  The tokens
of `"1 + 2 * 3"` parse to the tree rendering as `(+ 1 (* 2 3))`, and the
tokens of `"1 - 2 - 3"` parse to the left-associated tree rendering as
`(- (- 1 2) 3)` and not to the right-associated tree. -/
theorem c3_precedence_left_assoc :
    (scanTokens "1 + 2 * 3").2 = []
  ∧ parse (scanTokens "1 + 2 * 3").1 =
      .ok (.Binary (.Literal (.Number 1))
            { token := .Plus, line := 1, lexeme := "+", literal := none }
            (.Binary (.Literal (.Number 2))
              { token := .Star, line := 1, lexeme := "*", literal := none }
              (.Literal (.Number 3))))
  ∧ renderExpr
      (.Binary (.Literal (.Number 1))
        { token := .Plus, line := 1, lexeme := "+", literal := none }
        (.Binary (.Literal (.Number 2))
          { token := .Star, line := 1, lexeme := "*", literal := none }
          (.Literal (.Number 3)))) = "(+ 1 (* 2 3))"
  ∧ (scanTokens "1 - 2 - 3").2 = []
  ∧ parse (scanTokens "1 - 2 - 3").1 =
      .ok (.Binary
            (.Binary (.Literal (.Number 1))
              { token := .Minus, line := 1, lexeme := "-", literal := none }
              (.Literal (.Number 2)))
            { token := .Minus, line := 1, lexeme := "-", literal := none }
            (.Literal (.Number 3)))
  ∧ renderExpr
      (.Binary
        (.Binary (.Literal (.Number 1))
          { token := .Minus, line := 1, lexeme := "-", literal := none }
          (.Literal (.Number 2)))
        { token := .Minus, line := 1, lexeme := "-", literal := none }
        (.Literal (.Number 3))) = "(- (- 1 2) 3)"
  ∧ parse (scanTokens "1 - 2 - 3").1 ≠
      .ok (.Binary (.Literal (.Number 1))
            { token := .Minus, line := 1, lexeme := "-", literal := none }
            (.Binary (.Literal (.Number 2))
              { token := .Minus, line := 1, lexeme := "-", literal := none }
              (.Literal (.Number 3)))) := by
  refine ⟨by decide, by decide, by decide, by decide, by decide, by decide, by decide⟩

/-- Claim C4 (refuted by the code): the scan of `"=\n"` — the failed
`conditional_advance` guard for `=` consumes the newline *without*
incrementing the line counter, so the `EOF` token's line is `1` although
the input contains one `\n` (the claim requires `2`). -/
theorem c4_eof_line_count_eval :
    scanTokens "=\n" =
      ([{ token := .Equal, line := 1, lexeme := "=\n", literal := none },
        { token := .EOF, line := 1, lexeme := eofLexeme, literal := none }],
       [])
  ∧ ("=\n".toList.count '\n') + 1 = 2 := by
  constructor <;> decide

/-- Claim C5 (refuted by the code): `"a_b"` scans as *two* `Identifier`
tokens `"a"` and `"_b"` — the identifier loop only accepts ASCII
alphanumerics, so the interior `_` ends the first lexeme and then starts
a fresh identifier. -/
theorem c5_identifier_underscore_eval :
    scanTokens "a_b" =
      ([{ token := .Identifier, line := 1, lexeme := "a", literal := none },
        { token := .Identifier, line := 1, lexeme := "_b", literal := none },
        { token := .EOF, line := 1, lexeme := eofLexeme, literal := none }],
       []) := by
  decide

/-- Claim C6, counterexample: the multi-line string literal in
`"\"a\nb\""` opens on line 1 but its token carries `line = 2` (the line
of its closing quote), because `add_token` records the line counter
*after* the string body's newlines have been counted. -/
theorem c6_token_line_counterexample :
    (scanTokens "\"a\nb\"").1 =
      [{ token := .Str, line := 2, lexeme := "\"a\nb\"", literal := some (.Str "a\nb") },
       { token := .EOF, line := 2, lexeme := eofLexeme, literal := none }]
  ∧ (2 : Nat) ≠ 1 := by
  constructor <;> decide

/-- Claim C8 (refuted by the code): a `Number` token with no attached
literal reaching `primary` position makes the parser *panic*
(`literal.clone().unwrap()` on `None`), rather than return the declared
`UndefinedLiteral` error — that variant is never constructed. -/
theorem c8_undefined_literal_eval :
    parse [{ token := .Number, line := 1, lexeme := "1", literal := none },
           { token := .EOF, line := 1, lexeme := eofLexeme, literal := none }] =
      .unwrapNone
  ∧ (POut.unwrapNone : POut Expr) ≠ .err (.UndefinedLiteral 1) := by
  constructor <;> decide

/-- A cursor pointing at the second element of a token list. -/
lemma peekT_cons_one (a b : Token) (l : List Token) : peekT (a :: b :: l) 1 = some b := by
  simp [peekT]

/-- `current_eq` reports `false` whenever the current token's kind
differs from the probed kind (whether or not that kind is `EOF`). -/
lemma currentEqT_of_ne {ts : List Token} {c : Nat} {t : Token} (tt : TokenType)
    (hp : peekT ts c = some t) (hne : t.token ≠ tt) : currentEqT ts c tt = some false := by
  unfold currentEqT isAtEndT
  rw [hp]
  by_cases he : t.token = TokenType.EOF
  · simp [he]
  · simp [he, hne]

/-- `match_token_type` misses (and leaves the cursor alone) when the
current token's kind is none of the probed kinds. -/
lemma matchTT_of_ne {ts : List Token} {c : Nat} {t : Token} (hp : peekT ts c = some t) :
    ∀ tts : List TokenType, (∀ tt ∈ tts, t.token ≠ tt) → matchTT ts c tts = some (false, c)
  | [], _ => rfl
  | tt :: rest, hne => by
    unfold matchTT
    rw [currentEqT_of_ne tt hp (hne tt (by simp))]
    exact matchTT_of_ne hp rest (fun x hx => hne x (by simp [hx]))

/-- The equality loop exits at once on a missed match. -/
lemma eqLoop_exit (ts : List Token) (f : Nat) (e : Expr) (c : Nat)
    (hm : matchTT ts c [.BangEqual, .EqualEqual] = some (false, c)) :
    runRule ts (f+1) (.eqLoop e) c = .ok (e, c) := by
  unfold runRule
  rw [hm]

/-- The comparison loop exits at once on a missed match. -/
lemma cmpLoop_exit (ts : List Token) (f : Nat) (e : Expr) (c : Nat)
    (hm : matchTT ts c [.Greater, .GreaterEqual, .Less, .LessEqual] = some (false, c)) :
    runRule ts (f+1) (.cmpLoop e) c = .ok (e, c) := by
  unfold runRule
  rw [hm]

/-- The term loop exits at once on a missed match. -/
lemma termLoop_exit (ts : List Token) (f : Nat) (e : Expr) (c : Nat)
    (hm : matchTT ts c [.Minus, .Plus] = some (false, c)) :
    runRule ts (f+1) (.termLoop e) c = .ok (e, c) := by
  unfold runRule
  rw [hm]

/-- The factor loop exits at once on a missed match. -/
lemma factorLoop_exit (ts : List Token) (f : Nat) (e : Expr) (c : Nat)
    (hm : matchTT ts c [.Slash, .Star] = some (false, c)) :
    runRule ts (f+1) (.factorLoop e) c = .ok (e, c) := by
  unfold runRule
  rw [hm]

/-- The leading token of the C10 family: a `Number` token for `1`
carrying its decoded literal. -/
def numTokOne : Token :=
  { token := .Number, line := 1, lexeme := "1", literal := some (.Number 1) }

/-- Computation backing claim C10: with a leading `Number 1` token, the
full descent parses the literal and every binary-operator loop exits at
cursor 1 provided the next token's kind extends no binary level. -/
lemma c10_trailing_aux (k : Nat) (t : Token) (rest : List Token)
    (hne : ∀ tt ∈ ([.Slash, .Star, .Minus, .Plus, .Greater, .GreaterEqual, .Less, .LessEqual,
        .BangEqual, .EqualEqual] : List TokenType), t.token ≠ tt) :
    runRule (numTokOne :: t :: rest) (k+8) .expr 0 = .ok (.Literal (.Number 1), 1) := by
  have hp : peekT (numTokOne :: t :: rest) 1 = some t := peekT_cons_one _ _ _
  have hfs : ∀ tt ∈ ([.Slash, .Star] : List TokenType), t.token ≠ tt := by
    intro tt h'
    apply hne tt
    simp at h' ⊢
    tauto
  have hmp : ∀ tt ∈ ([.Minus, .Plus] : List TokenType), t.token ≠ tt := by
    intro tt h'
    apply hne tt
    simp at h' ⊢
    tauto
  have hcmps : ∀ tt ∈ ([.Greater, .GreaterEqual, .Less, .LessEqual] : List TokenType),
      t.token ≠ tt := by
    intro tt h'
    apply hne tt
    simp at h' ⊢
    tauto
  have heqs : ∀ tt ∈ ([.BangEqual, .EqualEqual] : List TokenType), t.token ≠ tt := by
    intro tt h'
    apply hne tt
    simp at h' ⊢
    tauto
  have hfl := factorLoop_exit (numTokOne :: t :: rest) (k+2) (.Literal (.Number 1)) 1
    (matchTT_of_ne hp _ hfs)
  have hfac : runRule (numTokOne :: t :: rest) (k+4) .factor 0 =
      .ok (.Literal (.Number 1), 1) :=
    (show runRule (numTokOne :: t :: rest) (k+4) .factor 0 =
        runRule (numTokOne :: t :: rest) (k+3) (.factorLoop (.Literal (.Number 1))) 1
      from rfl).trans hfl
  have htl := termLoop_exit (numTokOne :: t :: rest) (k+3) (.Literal (.Number 1)) 1
    (matchTT_of_ne hp _ hmp)
  have hterm : runRule (numTokOne :: t :: rest) (k+5) .term 0 =
      .ok (.Literal (.Number 1), 1) := by
    have e1 : runRule (numTokOne :: t :: rest) (k+5) .term 0 =
        (match runRule (numTokOne :: t :: rest) (k+4) .factor 0 with
         | .ok (e, c1) => runRule (numTokOne :: t :: rest) (k+4) (.termLoop e) c1
         | o => o) := rfl
    rw [e1, hfac]
    exact htl
  have hcl := cmpLoop_exit (numTokOne :: t :: rest) (k+4) (.Literal (.Number 1)) 1
    (matchTT_of_ne hp _ hcmps)
  have hcmp : runRule (numTokOne :: t :: rest) (k+6) .cmp 0 =
      .ok (.Literal (.Number 1), 1) := by
    have e2 : runRule (numTokOne :: t :: rest) (k+6) .cmp 0 =
        (match runRule (numTokOne :: t :: rest) (k+5) .term 0 with
         | .ok (e, c1) => runRule (numTokOne :: t :: rest) (k+5) (.cmpLoop e) c1
         | o => o) := rfl
    rw [e2, hterm]
    exact hcl
  have hel := eqLoop_exit (numTokOne :: t :: rest) (k+5) (.Literal (.Number 1)) 1
    (matchTT_of_ne hp _ heqs)
  have heq2 : runRule (numTokOne :: t :: rest) (k+7) .eq 0 =
      .ok (.Literal (.Number 1), 1) := by
    have e3 : runRule (numTokOne :: t :: rest) (k+7) .eq 0 =
        (match runRule (numTokOne :: t :: rest) (k+6) .cmp 0 with
         | .ok (e, c1) => runRule (numTokOne :: t :: rest) (k+6) (.eqLoop e) c1
         | o => o) := rfl
    rw [e3, hcmp]
    exact hel
  exact (show runRule (numTokOne :: t :: rest) (k+8) .expr 0 =
      runRule (numTokOne :: t :: rest) (k+7) .eq 0 from rfl).trans heq2

/-- Claim C10 (confirmed): `parse` runs `expression` from cursor 0 and
performs no end-of-input check afterwards, so a token sequence beginning
with a complete leading expression (here the literal `1`) followed by a
token that extends no binary-operator level and then *any* tail parses
successfully to the leading expression, with no error for the trailing
tokens. -/
theorem c10_trailing_tokens_ignored (t : Token) (rest : List Token)
    (h : t.token ∉ ([.Slash, .Star, .Minus, .Plus, .Greater, .GreaterEqual, .Less, .LessEqual,
        .BangEqual, .EqualEqual] : List TokenType)) :
    parse (numTokOne :: t :: rest) = .ok (.Literal (.Number 1)) := by
  have hne : ∀ tt ∈ ([.Slash, .Star, .Minus, .Plus, .Greater, .GreaterEqual, .Less, .LessEqual,
      .BangEqual, .EqualEqual] : List TokenType), t.token ≠ tt :=
    fun tt htt heq => h (heq ▸ htt)
  unfold parse
  have hlen : 12 * (numTokOne :: t :: rest).length + 13 = (12 * rest.length + 29) + 8 := by
    simp [List.length_cons]
    omega
  rw [hlen, c10_trailing_aux (12 * rest.length + 29) t rest hne]

/-- Witness for C10 at the token sequence of `"1 2"`. -/
theorem c10_trailing_tokens_ignored_witness :
    ({ token := TokenType.Number, line := 1, lexeme := "2",
        literal := some (.Number 2) } : Token).token ∉
      ([.Slash, .Star, .Minus, .Plus, .Greater, .GreaterEqual, .Less, .LessEqual,
        .BangEqual, .EqualEqual] : List TokenType)
  ∧ parse (numTokOne ::
      ({ token := .Number, line := 1, lexeme := "2", literal := some (.Number 2) } : Token) ::
      [{ token := .EOF, line := 1, lexeme := eofLexeme, literal := none }]) =
      .ok (.Literal (.Number 1)) :=
  ⟨by decide,
   c10_trailing_tokens_ignored
     { token := .Number, line := 1, lexeme := "2", literal := some (.Number 2) }
     [{ token := .EOF, line := 1, lexeme := eofLexeme, literal := none }] (by decide)⟩

/-- Scanner `peek` at an in-bounds cursor. -/
lemma peekS_lt {st : ScanState} (h : st.current < st.source.length) :
    peekS st = some st.source[st.current] := by
  unfold peekS
  rw [if_neg (by omega)]
  exact List.getElem?_eq_getElem h

/-- Scanner `current_char_test` at an in-bounds cursor. -/
lemma currentCharTest_lt {st : ScanState} {p : Char → Bool}
    (h : st.current < st.source.length) :
    currentCharTest st p = p st.source[st.current] := by
  unfold currentCharTest
  rw [peekS_lt h]

/-- Scanner `current_char_test` at or past the end of input. -/
lemma currentCharTest_ge {st : ScanState} {p : Char → Bool}
    (h : st.source.length ≤ st.current) :
    currentCharTest st p = false := by
  unfold currentCharTest peekS
  rw [if_pos h]

/-- Scanner `is_at_end` at an in-bounds cursor. -/
lemma isAtEndS_lt {st : ScanState} (h : st.current < st.source.length) :
    isAtEndS st = false := by
  unfold isAtEndS
  exact decide_eq_false (by omega)

/-- Scanner `is_at_end` at or past the end of input. -/
lemma isAtEndS_ge {st : ScanState} (h : st.source.length ≤ st.current) :
    isAtEndS st = true := by
  unfold isAtEndS
  exact decide_eq_true h

/-- The string-body loop, when no closing quote remains, runs to the end
of input and adds one line per newline consumed; nothing else in the
state changes. -/
lemma stringLoop_no_quote :
    ∀ (f : Nat) (st : ScanState), st.current ≤ st.source.length →
    st.source.length - st.current + 1 ≤ f →
    (∀ ch ∈ st.source.drop st.current, ch ≠ '"') →
    stringLoop f st =
      { st with current := st.source.length,
                line := st.line + (st.source.drop st.current).count '\n' }
  | 0, st, _, hf, _ => absurd hf (by omega)
  | f+1, st, hc, hf, hq => by
    rcases Nat.lt_or_ge st.current st.source.length with hlt | hge
    · have hdrop : st.source.drop st.current =
          st.source[st.current] :: st.source.drop (st.current + 1) :=
        List.drop_eq_getElem_cons hlt
      have hcne : st.source[st.current] ≠ '"' := by
        apply hq
        rw [hdrop]
        exact List.mem_cons_self _ _
      have hqtail : ∀ ch ∈ st.source.drop (st.current + 1), ch ≠ '"' := by
        intro ch hch
        apply hq
        rw [hdrop]
        exact List.mem_cons_of_mem _ hch
      have hcnt : (st.source.drop st.current).count '\n' =
          (st.source.drop (st.current + 1)).count '\n' +
            (if st.source[st.current] = '\n' then 1 else 0) := by
        rw [hdrop, List.count_cons]
        by_cases hnl : st.source[st.current] = '\n' <;> simp [hnl]
      unfold stringLoop
      rw [currentCharTest_lt hlt, currentCharTest_lt hlt, isAtEndS_lt hlt,
        decide_eq_false hcne]
      simp only [Bool.not_false, Bool.and_self, if_true]
      by_cases hnl : st.source[st.current] = '\n'
      · rw [if_pos (by simp [hnl])]
        have hrec := stringLoop_no_quote f
          { st with line := st.line + 1, current := st.current + 1 }
          (by simp; omega) (by simp; omega) (by simpa using hqtail)
        rw [hrec]
        simp only [ScanState.mk.injEq, and_true, true_and]
        rw [hcnt, if_pos hnl]
        omega
      · rw [if_neg (by simp [hnl])]
        have hrec := stringLoop_no_quote f
          { st with current := st.current + 1 }
          (by simp; omega) (by simp; omega) (by simpa using hqtail)
        rw [hrec]
        simp only [ScanState.mk.injEq, and_true, true_and]
        rw [hcnt, if_neg hnl]
        omega
    · have heq : st.current = st.source.length := le_antisymm hc hge
      unfold stringLoop
      rw [currentCharTest_ge hge, isAtEndS_ge hge]
      simp only [Bool.not_false, Bool.not_true, Bool.and_false, Bool.false_eq_true, if_false]
      have hz : (st.source.drop st.current).count '\n' = 0 := by
        rw [heq, List.drop_length]
        rfl
      rw [hz, Nat.add_zero, ← heq]

/-- Claim C7 (confirmed): (1) whenever no closing quote remains in the
input, `add_string_token` leaves the token list untouched and returns
exactly one `UnterminatedString` error carrying the current line (the
opening line plus the newlines it consumed), with the cursor at end of
input — so the enclosing scan loop stops immediately afterwards; (2) for
*every* input, the token sequence of `scan_tokens` ends with the `EOF`
token; (3) concretely, the spec's example `"\"Hello, world!"` scans to
the single `EOF` token and exactly one `UnterminatedString{line: 1}`
error. -/
theorem c7_unterminated_string :
    (∀ (st : ScanState) (f : Nat), st.current ≤ st.source.length →
      st.source.length - st.current + 1 ≤ f →
      (∀ ch ∈ st.source.drop st.current, ch ≠ '"') →
      addStringToken f st =
        ({ st with current := st.source.length,
                   line := st.line + (st.source.drop st.current).count '\n' },
         some (.UnterminatedString (st.line + (st.source.drop st.current).count '\n'))))
  ∧ (∀ s : String, ∃ l : Nat, (scanTokens s).1.getLast? =
      some { token := .EOF, line := l, lexeme := eofLexeme, literal := none })
  ∧ scanTokens "\"Hello, world!" =
      ([{ token := .EOF, line := 1, lexeme := eofLexeme, literal := none }],
       [.UnterminatedString 1]) := by
  refine ⟨?_, ?_, by decide⟩
  · intro st f hc hf hq
    have h1 := stringLoop_no_quote f st hc hf hq
    unfold addStringToken
    rw [h1, if_pos (isAtEndS_ge (by simp))]
  · intro s
    refine ⟨(scanTokensLoop (s.toList.length + 1)
      { source := s.toList, tokens := [], start := 0, current := 0, line := 1,
        errors := [] }).line, ?_⟩
    unfold scanTokens
    simp [List.getLast?_append]

/-- Witness for C7: the unterminated-string scan state reached just after
the opening quote of `"\"Hello, world!"`. -/
def c7Input : ScanState :=
  { source := "\"Hello, world!".toList, tokens := [], start := 0, current := 1,
    line := 1, errors := [] }

/-- Witness theorem for C7, instantiating its universal part at
`c7Input` with fuel 15. -/
theorem c7_unterminated_string_witness :
    (c7Input.current ≤ c7Input.source.length
      ∧ c7Input.source.length - c7Input.current + 1 ≤ 15
      ∧ ∀ ch ∈ c7Input.source.drop c7Input.current, ch ≠ '"')
  ∧ addStringToken 15 c7Input =
      ({ c7Input with current := c7Input.source.length,
                      line := c7Input.line + (c7Input.source.drop c7Input.current).count '\n' },
       some (.UnterminatedString
         (c7Input.line + (c7Input.source.drop c7Input.current).count '\n'))) :=
  ⟨⟨by decide, by decide, by decide⟩,
   c7_unterminated_string.1 c7Input 15 (by decide) (by decide) (by decide)⟩

/-- `conditional_advance` only ever moves the cursor. -/
lemma conditionalAdvance_shape (st : ScanState) (t : Char) :
    ∃ k, (conditionalAdvance st t).1 = { st with current := st.current + k } := by
  unfold conditionalAdvance
  split
  · exact ⟨0, by cases st; simp⟩
  · split
    · exact ⟨1, rfl⟩
    · exact ⟨0, by cases st; simp⟩

/-- The identifier loop only ever moves the cursor. -/
lemma identLoop_shape : ∀ (f : Nat) (st : ScanState),
    ∃ k, identLoop f st = { st with current := st.current + k }
  | 0, st => ⟨0, by cases st; simp [identLoop]⟩
  | f+1, st => by
    unfold identLoop
    split
    · obtain ⟨k, hk⟩ := identLoop_shape f { st with current := st.current + 1 }
      refine ⟨k + 1, ?_⟩
      rw [hk]
      simp only [ScanState.mk.injEq, and_true, true_and]
      omega
    · exact ⟨0, by cases st; simp⟩

/-- The digit loop only ever moves the cursor. -/
lemma digitLoop_shape : ∀ (f : Nat) (st : ScanState),
    ∃ k, digitLoop f st = { st with current := st.current + k }
  | 0, st => ⟨0, by cases st; simp [digitLoop]⟩
  | f+1, st => by
    unfold digitLoop
    split
    · obtain ⟨k, hk⟩ := digitLoop_shape f { st with current := st.current + 1 }
      refine ⟨k + 1, ?_⟩
      rw [hk]
      simp only [ScanState.mk.injEq, and_true, true_and]
      omega
    · exact ⟨0, by cases st; simp⟩

/-- The comment loop only ever moves the cursor. -/
lemma commentLoop_shape : ∀ (f : Nat) (st : ScanState),
    ∃ k, commentLoop f st = { st with current := st.current + k }
  | 0, st => ⟨0, by cases st; simp [commentLoop]⟩
  | f+1, st => by
    unfold commentLoop
    split
    · obtain ⟨k, hk⟩ := commentLoop_shape f { st with current := st.current + 1 }
      refine ⟨k + 1, ?_⟩
      rw [hk]
      simp only [ScanState.mk.injEq, and_true, true_and]
      omega
    · exact ⟨0, by cases st; simp⟩

/-- The keyword table never classifies a lexeme as a string literal. -/
lemma keywordLookup_ne_Str (s : String) : keywordLookup s ≠ .Str := by
  unfold keywordLookup
  by_cases h0 : s = "and"
  · rw [if_pos h0]
    exact fun hh => TokenType.noConfusion hh
  rw [if_neg h0]
  by_cases h1 : s = "class"
  · rw [if_pos h1]
    exact fun hh => TokenType.noConfusion hh
  rw [if_neg h1]
  by_cases h2 : s = "else"
  · rw [if_pos h2]
    exact fun hh => TokenType.noConfusion hh
  rw [if_neg h2]
  by_cases h3 : s = "true"
  · rw [if_pos h3]
    exact fun hh => TokenType.noConfusion hh
  rw [if_neg h3]
  by_cases h4 : s = "false"
  · rw [if_pos h4]
    exact fun hh => TokenType.noConfusion hh
  rw [if_neg h4]
  by_cases h5 : s = "for"
  · rw [if_pos h5]
    exact fun hh => TokenType.noConfusion hh
  rw [if_neg h5]
  by_cases h6 : s = "fun"
  · rw [if_pos h6]
    exact fun hh => TokenType.noConfusion hh
  rw [if_neg h6]
  by_cases h7 : s = "if"
  · rw [if_pos h7]
    exact fun hh => TokenType.noConfusion hh
  rw [if_neg h7]
  by_cases h8 : s = "nil"
  · rw [if_pos h8]
    exact fun hh => TokenType.noConfusion hh
  rw [if_neg h8]
  by_cases h9 : s = "or"
  · rw [if_pos h9]
    exact fun hh => TokenType.noConfusion hh
  rw [if_neg h9]
  by_cases h10 : s = "print"
  · rw [if_pos h10]
    exact fun hh => TokenType.noConfusion hh
  rw [if_neg h10]
  by_cases h11 : s = "return"
  · rw [if_pos h11]
    exact fun hh => TokenType.noConfusion hh
  rw [if_neg h11]
  by_cases h12 : s = "super"
  · rw [if_pos h12]
    exact fun hh => TokenType.noConfusion hh
  rw [if_neg h12]
  by_cases h13 : s = "this"
  · rw [if_pos h13]
    exact fun hh => TokenType.noConfusion hh
  rw [if_neg h13]
  by_cases h14 : s = "var"
  · rw [if_pos h14]
    exact fun hh => TokenType.noConfusion hh
  rw [if_neg h14]
  by_cases h15 : s = "while"
  · rw [if_pos h15]
    exact fun hh => TokenType.noConfusion hh
  rw [if_neg h15]
  exact fun hh => TokenType.noConfusion hh

/-- With sufficient fuel, the string-body loop consumes some `k`
characters, adding one line per newline among them, and stops either at
end of input or on a closing quote. -/
lemma stringLoop_spec : ∀ (f : Nat) (st : ScanState),
    st.current ≤ st.source.length →
    st.source.length - st.current + 1 ≤ f →
    ∃ k, st.current + k ≤ st.source.length ∧
      stringLoop f st =
        { st with current := st.current + k,
                  line := st.line + ((st.source.drop st.current).take k).count '\n' } ∧
      (st.current + k = st.source.length ∨
        (st.current + k < st.source.length ∧ st.source[st.current + k]? = some '"'))
  | 0, st, _, hf => absurd hf (by omega)
  | f+1, st, hc, hf => by
    rcases Nat.lt_or_ge st.current st.source.length with hlt | hge
    · have hdrop : st.source.drop st.current =
          st.source[st.current] :: st.source.drop (st.current + 1) :=
        List.drop_eq_getElem_cons hlt
      by_cases hcq : st.source[st.current] = '"'
      · refine ⟨0, by omega, ?_, Or.inr ⟨hlt, by rw [Nat.add_zero, List.getElem?_eq_getElem hlt, hcq]⟩⟩
        unfold stringLoop
        rw [currentCharTest_lt hlt, decide_eq_true hcq]
        simp only [Bool.not_true, Bool.false_and, Bool.false_eq_true, if_false]
        cases st
        simp
      · unfold stringLoop
        rw [currentCharTest_lt hlt, currentCharTest_lt hlt, isAtEndS_lt hlt,
          decide_eq_false hcq]
        simp only [Bool.not_false, Bool.and_self, if_true]
        by_cases hnl : st.source[st.current] = '\n'
        · rw [if_pos (by simp [hnl])]
          obtain ⟨k, hk1, hk2, hk3⟩ := stringLoop_spec f
            { st with line := st.line + 1, current := st.current + 1 }
            (by simp; omega) (by simp; omega)
          simp only at hk1 hk2 hk3
          refine ⟨k + 1, by omega, ?_, ?_⟩
          · rw [hk2]
            simp only [ScanState.mk.injEq, and_true, true_and]
            constructor
            · omega
            · rw [hdrop, List.take_succ_cons, List.count_cons]
              simp [hnl]
              omega
          · rcases hk3 with h | ⟨h1, h2⟩
            · exact Or.inl (by omega)
            · refine Or.inr ⟨by omega, ?_⟩
              rw [show st.current + (k + 1) = st.current + 1 + k by omega]
              exact h2
        · rw [if_neg (by simp [hnl])]
          obtain ⟨k, hk1, hk2, hk3⟩ := stringLoop_spec f
            { st with current := st.current + 1 }
            (by simp; omega) (by simp; omega)
          simp only at hk1 hk2 hk3
          refine ⟨k + 1, by omega, ?_, ?_⟩
          · rw [hk2]
            simp only [ScanState.mk.injEq, and_true, true_and]
            constructor
            · omega
            · rw [hdrop, List.take_succ_cons, List.count_cons]
              simp [hnl]
          · rcases hk3 with h | ⟨h1, h2⟩
            · exact Or.inl (by omega)
            · refine Or.inr ⟨by omega, ?_⟩
              rw [show st.current + (k + 1) = st.current + 1 + k by omega]
              exact h2
    · refine ⟨0, by omega, ?_, Or.inl (by omega)⟩
      unfold stringLoop
      rw [currentCharTest_ge hge, isAtEndS_ge hge]
      simp only [Bool.not_false, Bool.not_true, Bool.and_false, Bool.false_eq_true, if_false]
      have hz : ((st.source.drop st.current).take 0).count '\n' = 0 := rfl
      rw [hz, Nat.add_zero, Nat.add_zero]

/-- Unpacking a successful scanner `peek`. -/
lemma peekS_eq_some {st : ScanState} {c : Char} (h : peekS st = some c) :
    st.current < st.source.length ∧ st.source[st.current]? = some c := by
  unfold peekS at h
  split at h
  · exact Option.noConfusion h
  · exact ⟨by omega, h⟩

/-- The disjunction shape of the amended claim C6, for a token appended
by `add_token` from a state whose tokens and line agree with `st` and
whose kind is not `Str`. -/
lemma c6_addTok {st st' : ScanState} {tt : TokenType} {lit : Option LiteralType}
    (hto : st'.tokens = st.tokens) (hln : st'.line = st.line) (hne : tt ≠ .Str) :
    (addTokenS st' tt lit).tokens = st.tokens
  ∨ ∃ t, (addTokenS st' tt lit).tokens = st.tokens ++ [t]
      ∧ (t.token ≠ TokenType.Str → t.line = st.line)
      ∧ (t.token = TokenType.Str → t.line = st.line + t.lexeme.toList.count '\n') :=
  Or.inr ⟨{ token := tt, line := st'.line,
            lexeme := getSourceSlice st' st'.start st'.current, literal := lit },
    by show st'.tokens ++ [_] = st.tokens ++ [_]; rw [hto],
    fun _ => hln,
    fun hh => absurd hh hne⟩

/-- Claim C6 as amended: a lexeme scan appends at most one token; any
appended token that is not a string literal carries the line counter at
the start of the lexeme (the line of its first character), while a
string-literal token carries that line *plus the newlines inside its
lexeme* — i.e. the line of its closing quote. -/
theorem c6_token_line_amended (st : ScanState) (hs : st.start = st.current) :
    (scanToken st).1.tokens = st.tokens
  ∨ ∃ t : Token, (scanToken st).1.tokens = st.tokens ++ [t]
      ∧ (t.token ≠ TokenType.Str → t.line = st.line)
      ∧ (t.token = TokenType.Str → t.line = st.line + t.lexeme.toList.count '\n') := by
  rcases hpk : peekS st with _ | c
  · left
    simp only [scanToken, advanceS, hpk]
  · obtain ⟨hlt, hget⟩ := peekS_eq_some hpk
    simp only [scanToken, advanceS, hpk]
    by_cases h1 : c = '('
    · rw [if_pos h1]; exact c6_addTok rfl rfl (by decide)
    rw [if_neg h1]
    by_cases h2 : c = ')'
    · rw [if_pos h2]; exact c6_addTok rfl rfl (by decide)
    rw [if_neg h2]
    by_cases h3 : c = '{'
    · rw [if_pos h3]; exact c6_addTok rfl rfl (by decide)
    rw [if_neg h3]
    by_cases h4 : c = '}'
    · rw [if_pos h4]; exact c6_addTok rfl rfl (by decide)
    rw [if_neg h4]
    by_cases h5 : c = ','
    · rw [if_pos h5]; exact c6_addTok rfl rfl (by decide)
    rw [if_neg h5]
    by_cases h6 : c = '.'
    · rw [if_pos h6]; exact c6_addTok rfl rfl (by decide)
    rw [if_neg h6]
    by_cases h7 : c = '-'
    · rw [if_pos h7]; exact c6_addTok rfl rfl (by decide)
    rw [if_neg h7]
    by_cases h8 : c = '+'
    · rw [if_pos h8]; exact c6_addTok rfl rfl (by decide)
    rw [if_neg h8]
    by_cases h9 : c = ';'
    · rw [if_pos h9]; exact c6_addTok rfl rfl (by decide)
    rw [if_neg h9]
    by_cases h10 : c = '*'
    · rw [if_pos h10]; exact c6_addTok rfl rfl (by decide)
    rw [if_neg h10]
    by_cases h11 : c = '='
    · rw [if_pos h11]
      obtain ⟨k, hk⟩ := conditionalAdvance_shape { st with current := st.current + 1 } '='
      by_cases hb : (conditionalAdvance { st with current := st.current + 1 } '=').2
      · rw [if_pos hb]
        exact c6_addTok (by rw [hk]) (by rw [hk]) (by decide)
      · rw [if_neg hb]
        exact c6_addTok (by rw [hk]) (by rw [hk]) (by decide)
    rw [if_neg h11]
    by_cases h12 : c = '!'
    · rw [if_pos h12]
      obtain ⟨k, hk⟩ := conditionalAdvance_shape { st with current := st.current + 1 } '='
      by_cases hb : (conditionalAdvance { st with current := st.current + 1 } '=').2
      · rw [if_pos hb]
        exact c6_addTok (by rw [hk]) (by rw [hk]) (by decide)
      · rw [if_neg hb]
        exact Or.inl (by rw [hk])
    rw [if_neg h12]
    by_cases h13 : c = '<'
    · rw [if_pos h13]
      obtain ⟨k, hk⟩ := conditionalAdvance_shape { st with current := st.current + 1 } '='
      by_cases hb : (conditionalAdvance { st with current := st.current + 1 } '=').2
      · rw [if_pos hb]
        exact c6_addTok (by rw [hk]) (by rw [hk]) (by decide)
      · rw [if_neg hb]
        exact Or.inl (by rw [hk])
    rw [if_neg h13]
    by_cases h14 : c = '>'
    · rw [if_pos h14]
      obtain ⟨k, hk⟩ := conditionalAdvance_shape { st with current := st.current + 1 } '='
      by_cases hb : (conditionalAdvance { st with current := st.current + 1 } '=').2
      · rw [if_pos hb]
        exact c6_addTok (by rw [hk]) (by rw [hk]) (by decide)
      · rw [if_neg hb]
        exact Or.inl (by rw [hk])
    rw [if_neg h14]
    by_cases h15 : c = '/'
    · rw [if_pos h15]
      obtain ⟨k, hk⟩ := conditionalAdvance_shape { st with current := st.current + 1 } '/'
      by_cases hb : (conditionalAdvance { st with current := st.current + 1 } '/').2
      · rw [if_pos hb]
        obtain ⟨k2, hk2⟩ := commentLoop_shape (st.source.length + 1)
          (conditionalAdvance { st with current := st.current + 1 } '/').1
        refine Or.inl ?_
        rw [hk2, hk]
      · rw [if_neg hb]
        exact c6_addTok (by rw [hk]) (by rw [hk]) (by decide)
    rw [if_neg h15]
    by_cases h16 : c = '"'
    · rw [if_pos h16]
      obtain ⟨k, hk1, hk2, hk3⟩ := stringLoop_spec (st.source.length + 1)
        { st with current := st.current + 1 } (by simp only []; omega) (by simp only []; omega)
      simp only [] at hk1 hk2 hk3
      unfold addStringToken
      rw [hk2]
      simp only []
      rcases hk3 with hend | ⟨hqlt, hqc⟩
      · have hat : isAtEndS { st with
            current := st.current + 1 + k,
            line := st.line + ((st.source.drop (st.current + 1)).take k).count '\n' } = true :=
          isAtEndS_ge (by simp only []; omega)
        rw [if_pos hat]
        exact Or.inl rfl
      · have hat : isAtEndS { st with
            current := st.current + 1 + k,
            line := st.line + ((st.source.drop (st.current + 1)).take k).count '\n' } = false :=
          isAtEndS_lt (by simp only []; omega)
        rw [hat]
        simp only [Bool.false_eq_true, if_false]
        have hpk2 : peekS { st with
            current := st.current + 1 + k,
            line := st.line + ((st.source.drop (st.current + 1)).take k).count '\n' } =
            some '"' := by
          rw [peekS_lt (by simp only []; omega)]
          simp only []
          exact (List.getElem?_eq_getElem (by omega)).symm.trans hqc
        simp only [advanceS, hpk2]
        refine Or.inr ⟨_, rfl, fun hne => absurd rfl hne, fun _ => ?_⟩
        have hcsrc : st.source[st.current] = '"' := by
          have h' := (List.getElem?_eq_getElem hlt).symm.trans hget
          rw [Option.some.injEq] at h'
          rw [h', h16]
        have hdropc : st.source.drop st.current =
            st.source[st.current] :: st.source.drop (st.current + 1) :=
          List.drop_eq_getElem_cons hlt
        have htake2 : (st.source.drop st.current).take (k + 2) =
            st.source[st.current] :: (st.source.drop (st.current + 1)).take (k + 1) := by
          rw [hdropc, List.take_succ_cons]
        have htake1 : (st.source.drop (st.current + 1)).take (k + 1) =
            (st.source.drop (st.current + 1)).take k ++ ['"'] := by
          rw [List.take_succ]
          congr 1
          rw [List.getElem?_drop, hqc]
          rfl
        simp only [getSourceSlice]
        show st.line + ((st.source.drop (st.current + 1)).take k).count '\n' =
          st.line + (String.mk ((st.source.drop st.start).take
            (st.current + 1 + k + 1 - st.start))).toList.count '\n'
        have hchars : (String.mk ((st.source.drop st.start).take
            (st.current + 1 + k + 1 - st.start))).toList =
            (st.source.drop st.start).take (st.current + 1 + k + 1 - st.start) := rfl
        rw [hchars, hs, show st.current + 1 + k + 1 - st.current = k + 2 from by omega]
        rw [htake2, htake1, hcsrc, List.count_cons, List.count_append]
        simp
    rw [if_neg h16]
    by_cases h17 : c.isDigit
    · rw [if_pos h17]
      unfold addNumberToken
      obtain ⟨k1, hd1⟩ := digitLoop_shape (st.source.length + 1) { st with current := st.current + 1 }
      obtain ⟨k2, hd2⟩ := digitLoop_shape (st.source.length + 1)
        { st with current := st.current + 1 + k1 + 1 }
      rw [hd1]
      simp only []
      split
      · left
        split
        · rw [hd2]
        · rfl
      · exact c6_addTok
          (by
            split
            · rw [hd2]
            · rfl)
          (by
            split
            · rw [hd2]
            · rfl)
          (by decide)
    rw [if_neg h17]
    by_cases h18 : (c.isAlpha || decide (c = '_')) = true
    · rw [if_pos h18]
      unfold addIdentifierToken
      obtain ⟨k, hk⟩ := identLoop_shape (st.source.length + 1) { st with current := st.current + 1 }
      rw [hk]
      simp only []
      exact c6_addTok rfl rfl (keywordLookup_ne_Str _)
    rw [if_neg h18]
    by_cases h19 : c = ' ' ∨ c = '\r' ∨ c = '\t'
    · rw [if_pos h19]
      exact Or.inl rfl
    rw [if_neg h19]
    by_cases h20 : c = '\n'
    · rw [if_pos h20]
      exact Or.inl rfl
    rw [if_neg h20]
    exact Or.inl rfl

/-- Witness state for the amended claim C6: the scanner about to scan
the multi-line string literal of `"\"a\nb\""`. -/
def c6State : ScanState :=
  { source := "\"a\nb\"".toList, tokens := [], start := 0, current := 0, line := 1,
    errors := [] }

/-- Witness theorem for the amended claim C6, instantiating it at
`c6State`. -/
theorem c6_token_line_amended_witness :
    c6State.start = c6State.current
  ∧ ((scanToken c6State).1.tokens = c6State.tokens
      ∨ ∃ t : Token, (scanToken c6State).1.tokens = c6State.tokens ++ [t]
          ∧ (t.token ≠ TokenType.Str → t.line = c6State.line)
          ∧ (t.token = TokenType.Str → t.line = c6State.line + t.lexeme.toList.count '\n')) :=
  ⟨rfl, c6_token_line_amended c6State rfl⟩

/-- `E` is the position of the first `EOF` sentinel in `ts`. -/
def firstEofAt (ts : List Token) (E : Nat) : Prop :=
  (∃ t, ts[E]? = some t ∧ t.token = TokenType.EOF) ∧
  (∀ i t, i < E → ts[i]? = some t → t.token ≠ TokenType.EOF)

lemma eof_lt_length {ts : List Token} {E : Nat} (hE : firstEofAt ts E) : E < ts.length := by
  obtain ⟨⟨t, ht, _⟩, _⟩ := hE
  by_contra hcon
  rw [List.getElem?_eq_none (by omega)] at ht
  exact Option.noConfusion ht

/-- Below the sentinel, `peek` finds a token. -/
lemma peekT_le {ts : List Token} {E : Nat} (hE : firstEofAt ts E) {c : Nat} (hc : c ≤ E) :
    ∃ t, peekT ts c = some t ∧ ts[c]? = some t := by
  have hlen := eof_lt_length hE
  have h := List.getElem?_eq_getElem (show c < ts.length by omega)
  exact ⟨_, h, h⟩

/-- Strictly below the sentinel, `is_at_end` is `false`. -/
lemma isAtEndT_lt {ts : List Token} {E : Nat} (hE : firstEofAt ts E) {c : Nat} (hc : c < E) :
    isAtEndT ts c = some false := by
  obtain ⟨t, hpk, hget⟩ := peekT_le hE (le_of_lt hc)
  have hne : t.token ≠ TokenType.EOF := hE.2 c t hc hget
  simp only [isAtEndT, hpk, decide_eq_false hne]

/-- At the sentinel, `is_at_end` is `true`. -/
lemma isAtEndT_eq {ts : List Token} {E : Nat} (hE : firstEofAt ts E) :
    isAtEndT ts E = some true := by
  obtain ⟨⟨t, ht, heof⟩, -⟩ := hE
  simp only [isAtEndT, peekT, ht, decide_eq_true heof]

/-- `previous` just after an advance reads the token that was consumed. -/
lemma previousT_succ (ts : List Token) (c : Nat) : previousT ts (c + 1) = ts[c]? := by
  unfold previousT
  simp

/-- `advance` at or below the sentinel succeeds and keeps the cursor in
`[c, E]`; strictly below the sentinel it moves to `c + 1`. -/
lemma advanceT_spec {ts : List Token} {E : Nat} (hE : firstEofAt ts E) {c : Nat}
    (hc : c ≤ E) (hp : 0 < c ∨ c < E) :
    ∃ t c2, advanceT ts c = some (t, c2) ∧ c ≤ c2 ∧ c2 ≤ E ∧ (c < E → c2 = c + 1) := by
  have hlen := eof_lt_length hE
  rcases Nat.lt_or_ge c E with hlt | hge
  · obtain ⟨t, hpk, hget⟩ := peekT_le hE (le_of_lt hlt)
    refine ⟨t, c + 1, ?_, by omega, by omega, fun _ => rfl⟩
    simp only [advanceT, isAtEndT_lt hE hlt, Bool.false_eq_true, if_false,
      previousT_succ, hget]
  · have hceq : c = E := by omega
    have hcpos : 0 < c := by
      rcases hp with h | h
      · exact h
      · omega
    subst hceq
    obtain ⟨t, ht⟩ : ∃ t, ts[c - 1]? = some t :=
      ⟨_, List.getElem?_eq_getElem (show c - 1 < ts.length by omega)⟩
    refine ⟨t, c, ?_, le_refl _, le_refl _, fun h => absurd h (lt_irrefl _)⟩
    simp only [advanceT, isAtEndT_eq hE, if_true, previousT]
    rw [if_neg (by omega), ht]

/-- `current_eq` at the sentinel is `false` for every probed kind. -/
lemma currentEqT_at_end {ts : List Token} {E : Nat} (hE : firstEofAt ts E) (tt : TokenType) :
    currentEqT ts E tt = some false := by
  unfold currentEqT
  rw [isAtEndT_eq hE]

/-- `match_token_type` at or below the sentinel either misses (cursor
unchanged) or hits strictly below the sentinel (cursor moves one right). -/
lemma matchTT_spec {ts : List Token} {E : Nat} (hE : firstEofAt ts E) {c : Nat}
    (hc : c ≤ E) :
    ∀ tts : List TokenType,
      matchTT ts c tts = some (false, c) ∨ (matchTT ts c tts = some (true, c + 1) ∧ c < E)
  | [] => Or.inl rfl
  | tt :: rest => by
    rcases Nat.lt_or_ge c E with hlt | hge
    · obtain ⟨t, hpk, hget⟩ := peekT_le hE (le_of_lt hlt)
      unfold matchTT currentEqT
      rw [isAtEndT_lt hE hlt]
      by_cases hx : t.token = tt
      · obtain ⟨t2, c2, ha, _, _, hsucc⟩ := advanceT_spec hE hc (Or.inr hlt)
        rw [hsucc hlt] at ha
        refine Or.inr ⟨?_, hlt⟩
        simp only [hpk, decide_eq_true hx, ha]
      · simp only [hpk, decide_eq_false hx]
        exact matchTT_spec hE hc rest
    · have hceq : c = E := by omega
      subst hceq
      unfold matchTT
      rw [currentEqT_at_end hE]
      exact matchTT_spec hE hc rest

/-- `consume` at or below the sentinel either reports the missing-token
parse error or succeeds with the cursor still in `[c, E]`. -/
lemma consumeT_spec {ts : List Token} {E : Nat} (hE : firstEofAt ts E) {c : Nat}
    (hc : c ≤ E) (tt : TokenType) (msg : String) :
    (∃ pe, consumeT ts c tt msg = some (Except.error pe)) ∨
    (∃ t c2, consumeT ts c tt msg = some (Except.ok (t, c2)) ∧ c ≤ c2 ∧ c2 ≤ E) := by
  unfold consumeT
  rcases matchTT_spec hE hc [tt] with hm | ⟨hm, hlt⟩
  · rw [hm]
    exact Or.inl ⟨_, rfl⟩
  · rw [hm]
    obtain ⟨t2, c2, ha, h1, h2, -⟩ := advanceT_spec (c := c + 1) hE (by omega) (Or.inl (by omega))
    simp only [ha]
    exact Or.inr ⟨t2, c2, rfl, by omega, h2⟩

/-- Fuel thresholds for the nofuel-freedom induction: each grammar rule
needs at most `12 * (E - c) + rank r` fuel at cursor `c`. -/
def rank : Rule → Nat
  | .expr => 12
  | .eq => 11
  | .eqLoop _ => 10
  | .cmp => 9
  | .cmpLoop _ => 8
  | .term => 7
  | .termLoop _ => 6
  | .factor => 5
  | .factorLoop _ => 4
  | .unary => 3
  | .primary => 2

/-- The central safety invariant of the parser: over a token list whose
first `EOF` sentinel sits at index `E`, every rule run from a cursor
`c ≤ E` (i) never performs an out-of-bounds access, (ii) on success
leaves the cursor in `[c, E]`, and (iii) never exhausts fuel of at least
`12 * (E - c) + rank r`. -/
lemma runRule_safe (ts : List Token) (E : Nat) (hE : firstEofAt ts E) :
    ∀ (f : Nat) (r : Rule) (c : Nat), c ≤ E →
      runRule ts f r c ≠ .oob
      ∧ (∀ e c', runRule ts f r c = .ok (e, c') → c ≤ c' ∧ c' ≤ E)
      ∧ (12 * (E - c) + rank r ≤ f → runRule ts f r c ≠ .nofuel) := by
  intro f
  induction f with
  | zero =>
    intro r c hc
    refine ⟨by simp [runRule], by simp [runRule], fun hf => absurd hf ?_⟩
    cases r <;> simp [rank]
  | succ f IH =>
    intro r c hc
    cases r with
    | expr =>
      obtain ⟨ho, hb, hn⟩ := IH .eq c hc
      refine ⟨?_, ?_, ?_⟩
      · simpa only [runRule] using ho
      · intro e c' h
        simp only [runRule] at h
        exact hb e c' h
      · intro hf
        simp only [runRule]
        exact hn (by simp only [rank] at hf ⊢; omega)
    | eq =>
      obtain ⟨ho1, hb1, hn1⟩ := IH .cmp c hc
      cases hX : runRule ts f .cmp c with
      | ok a =>
        obtain ⟨e1, c1⟩ := a
        obtain ⟨hg1, hg2⟩ := hb1 e1 c1 hX
        obtain ⟨ho2, hb2, hn2⟩ := IH (Rule.eqLoop e1) c1 hg2
        refine ⟨?_, ?_, ?_⟩
        · simpa only [runRule, hX] using ho2
        · intro e c' h
          simp only [runRule, hX] at h
          obtain ⟨j1, j2⟩ := hb2 e c' h
          exact ⟨by omega, j2⟩
        · intro hf
          simp only [runRule, hX]
          refine hn2 ?_
          simp only [rank] at hf ⊢
          omega
      | err e1 =>
        refine ⟨?_, ?_, ?_⟩ <;> simp only [runRule, hX] <;> simp
      | oob => exact absurd hX ho1
      | unwrapNone =>
        refine ⟨?_, ?_, ?_⟩ <;> simp only [runRule, hX] <;> simp
      | nofuel =>
        refine ⟨?_, ?_, ?_⟩ <;> simp only [runRule, hX]
        · simp
        · simp
        · intro hf
          exact absurd hX (hn1 (by simp only [rank] at hf ⊢; omega))
    | cmp =>
      obtain ⟨ho1, hb1, hn1⟩ := IH .term c hc
      cases hX : runRule ts f .term c with
      | ok a =>
        obtain ⟨e1, c1⟩ := a
        obtain ⟨hg1, hg2⟩ := hb1 e1 c1 hX
        obtain ⟨ho2, hb2, hn2⟩ := IH (Rule.cmpLoop e1) c1 hg2
        refine ⟨?_, ?_, ?_⟩
        · simpa only [runRule, hX] using ho2
        · intro e c' h
          simp only [runRule, hX] at h
          obtain ⟨j1, j2⟩ := hb2 e c' h
          exact ⟨by omega, j2⟩
        · intro hf
          simp only [runRule, hX]
          refine hn2 ?_
          simp only [rank] at hf ⊢
          omega
      | err e1 =>
        refine ⟨?_, ?_, ?_⟩ <;> simp only [runRule, hX] <;> simp
      | oob => exact absurd hX ho1
      | unwrapNone =>
        refine ⟨?_, ?_, ?_⟩ <;> simp only [runRule, hX] <;> simp
      | nofuel =>
        refine ⟨?_, ?_, ?_⟩ <;> simp only [runRule, hX]
        · simp
        · simp
        · intro hf
          exact absurd hX (hn1 (by simp only [rank] at hf ⊢; omega))
    | term =>
      obtain ⟨ho1, hb1, hn1⟩ := IH .factor c hc
      cases hX : runRule ts f .factor c with
      | ok a =>
        obtain ⟨e1, c1⟩ := a
        obtain ⟨hg1, hg2⟩ := hb1 e1 c1 hX
        obtain ⟨ho2, hb2, hn2⟩ := IH (Rule.termLoop e1) c1 hg2
        refine ⟨?_, ?_, ?_⟩
        · simpa only [runRule, hX] using ho2
        · intro e c' h
          simp only [runRule, hX] at h
          obtain ⟨j1, j2⟩ := hb2 e c' h
          exact ⟨by omega, j2⟩
        · intro hf
          simp only [runRule, hX]
          refine hn2 ?_
          simp only [rank] at hf ⊢
          omega
      | err e1 =>
        refine ⟨?_, ?_, ?_⟩ <;> simp only [runRule, hX] <;> simp
      | oob => exact absurd hX ho1
      | unwrapNone =>
        refine ⟨?_, ?_, ?_⟩ <;> simp only [runRule, hX] <;> simp
      | nofuel =>
        refine ⟨?_, ?_, ?_⟩ <;> simp only [runRule, hX]
        · simp
        · simp
        · intro hf
          exact absurd hX (hn1 (by simp only [rank] at hf ⊢; omega))
    | factor =>
      obtain ⟨ho1, hb1, hn1⟩ := IH .unary c hc
      cases hX : runRule ts f .unary c with
      | ok a =>
        obtain ⟨e1, c1⟩ := a
        obtain ⟨hg1, hg2⟩ := hb1 e1 c1 hX
        obtain ⟨ho2, hb2, hn2⟩ := IH (Rule.factorLoop e1) c1 hg2
        refine ⟨?_, ?_, ?_⟩
        · simpa only [runRule, hX] using ho2
        · intro e c' h
          simp only [runRule, hX] at h
          obtain ⟨j1, j2⟩ := hb2 e c' h
          exact ⟨by omega, j2⟩
        · intro hf
          simp only [runRule, hX]
          refine hn2 ?_
          simp only [rank] at hf ⊢
          omega
      | err e1 =>
        refine ⟨?_, ?_, ?_⟩ <;> simp only [runRule, hX] <;> simp
      | oob => exact absurd hX ho1
      | unwrapNone =>
        refine ⟨?_, ?_, ?_⟩ <;> simp only [runRule, hX] <;> simp
      | nofuel =>
        refine ⟨?_, ?_, ?_⟩ <;> simp only [runRule, hX]
        · simp
        · simp
        · intro hf
          exact absurd hX (hn1 (by simp only [rank] at hf ⊢; omega))
    | eqLoop e0 =>
      rcases matchTT_spec hE hc [TokenType.BangEqual, TokenType.EqualEqual] with hm | ⟨hm, hclt⟩
      · refine ⟨?_, ?_, ?_⟩ <;> simp only [runRule, hm]
        · simp
        · intro e c' h
          simp only [POut.ok.injEq, Prod.mk.injEq] at h
          obtain ⟨-, h2⟩ := h
          exact ⟨by omega, by omega⟩
        · simp
      · obtain ⟨t0, hpk0, hget0⟩ := peekT_le hE (le_of_lt hclt)
        have hprev : previousT ts (c + 1) = some t0 := by rw [previousT_succ, hget0]
        obtain ⟨ho1, hb1, hn1⟩ := IH .cmp (c + 1) (by omega)
        cases hX : runRule ts f .cmp (c + 1) with
        | ok a =>
          obtain ⟨e1, c1⟩ := a
          obtain ⟨hg1, hg2⟩ := hb1 e1 c1 hX
          obtain ⟨ho2, hb2, hn2⟩ := IH (Rule.eqLoop (Expr.Binary e0 t0 e1)) c1 hg2
          refine ⟨?_, ?_, ?_⟩
          · simpa only [runRule, hm, hprev, hX] using ho2
          · intro e c' h
            simp only [runRule, hm, hprev, hX] at h
            obtain ⟨j1, j2⟩ := hb2 e c' h
            exact ⟨by omega, j2⟩
          · intro hf
            simp only [runRule, hm, hprev, hX]
            refine hn2 ?_
            simp only [rank] at hf ⊢
            omega
        | err e1 =>
          refine ⟨?_, ?_, ?_⟩ <;> simp only [runRule, hm, hprev, hX] <;> simp
        | oob => exact absurd hX ho1
        | unwrapNone =>
          refine ⟨?_, ?_, ?_⟩ <;> simp only [runRule, hm, hprev, hX] <;> simp
        | nofuel =>
          refine ⟨?_, ?_, ?_⟩ <;> simp only [runRule, hm, hprev, hX]
          · simp
          · simp
          · intro hf
            exact absurd hX (hn1 (by simp only [rank] at hf ⊢; omega))
    | cmpLoop e0 =>
      rcases matchTT_spec hE hc [TokenType.Greater, TokenType.GreaterEqual, TokenType.Less, TokenType.LessEqual] with hm | ⟨hm, hclt⟩
      · refine ⟨?_, ?_, ?_⟩ <;> simp only [runRule, hm]
        · simp
        · intro e c' h
          simp only [POut.ok.injEq, Prod.mk.injEq] at h
          obtain ⟨-, h2⟩ := h
          exact ⟨by omega, by omega⟩
        · simp
      · obtain ⟨t0, hpk0, hget0⟩ := peekT_le hE (le_of_lt hclt)
        have hprev : previousT ts (c + 1) = some t0 := by rw [previousT_succ, hget0]
        obtain ⟨ho1, hb1, hn1⟩ := IH .term (c + 1) (by omega)
        cases hX : runRule ts f .term (c + 1) with
        | ok a =>
          obtain ⟨e1, c1⟩ := a
          obtain ⟨hg1, hg2⟩ := hb1 e1 c1 hX
          obtain ⟨ho2, hb2, hn2⟩ := IH (Rule.cmpLoop (Expr.Binary e0 t0 e1)) c1 hg2
          refine ⟨?_, ?_, ?_⟩
          · simpa only [runRule, hm, hprev, hX] using ho2
          · intro e c' h
            simp only [runRule, hm, hprev, hX] at h
            obtain ⟨j1, j2⟩ := hb2 e c' h
            exact ⟨by omega, j2⟩
          · intro hf
            simp only [runRule, hm, hprev, hX]
            refine hn2 ?_
            simp only [rank] at hf ⊢
            omega
        | err e1 =>
          refine ⟨?_, ?_, ?_⟩ <;> simp only [runRule, hm, hprev, hX] <;> simp
        | oob => exact absurd hX ho1
        | unwrapNone =>
          refine ⟨?_, ?_, ?_⟩ <;> simp only [runRule, hm, hprev, hX] <;> simp
        | nofuel =>
          refine ⟨?_, ?_, ?_⟩ <;> simp only [runRule, hm, hprev, hX]
          · simp
          · simp
          · intro hf
            exact absurd hX (hn1 (by simp only [rank] at hf ⊢; omega))
    | termLoop e0 =>
      rcases matchTT_spec hE hc [TokenType.Minus, TokenType.Plus] with hm | ⟨hm, hclt⟩
      · refine ⟨?_, ?_, ?_⟩ <;> simp only [runRule, hm]
        · simp
        · intro e c' h
          simp only [POut.ok.injEq, Prod.mk.injEq] at h
          obtain ⟨-, h2⟩ := h
          exact ⟨by omega, by omega⟩
        · simp
      · obtain ⟨t0, hpk0, hget0⟩ := peekT_le hE (le_of_lt hclt)
        have hprev : previousT ts (c + 1) = some t0 := by rw [previousT_succ, hget0]
        obtain ⟨ho1, hb1, hn1⟩ := IH .factor (c + 1) (by omega)
        cases hX : runRule ts f .factor (c + 1) with
        | ok a =>
          obtain ⟨e1, c1⟩ := a
          obtain ⟨hg1, hg2⟩ := hb1 e1 c1 hX
          obtain ⟨ho2, hb2, hn2⟩ := IH (Rule.termLoop (Expr.Binary e0 t0 e1)) c1 hg2
          refine ⟨?_, ?_, ?_⟩
          · simpa only [runRule, hm, hprev, hX] using ho2
          · intro e c' h
            simp only [runRule, hm, hprev, hX] at h
            obtain ⟨j1, j2⟩ := hb2 e c' h
            exact ⟨by omega, j2⟩
          · intro hf
            simp only [runRule, hm, hprev, hX]
            refine hn2 ?_
            simp only [rank] at hf ⊢
            omega
        | err e1 =>
          refine ⟨?_, ?_, ?_⟩ <;> simp only [runRule, hm, hprev, hX] <;> simp
        | oob => exact absurd hX ho1
        | unwrapNone =>
          refine ⟨?_, ?_, ?_⟩ <;> simp only [runRule, hm, hprev, hX] <;> simp
        | nofuel =>
          refine ⟨?_, ?_, ?_⟩ <;> simp only [runRule, hm, hprev, hX]
          · simp
          · simp
          · intro hf
            exact absurd hX (hn1 (by simp only [rank] at hf ⊢; omega))
    | factorLoop e0 =>
      rcases matchTT_spec hE hc [TokenType.Slash, TokenType.Star] with hm | ⟨hm, hclt⟩
      · refine ⟨?_, ?_, ?_⟩ <;> simp only [runRule, hm]
        · simp
        · intro e c' h
          simp only [POut.ok.injEq, Prod.mk.injEq] at h
          obtain ⟨-, h2⟩ := h
          exact ⟨by omega, by omega⟩
        · simp
      · obtain ⟨t0, hpk0, hget0⟩ := peekT_le hE (le_of_lt hclt)
        have hprev : previousT ts (c + 1) = some t0 := by rw [previousT_succ, hget0]
        obtain ⟨ho1, hb1, hn1⟩ := IH .unary (c + 1) (by omega)
        cases hX : runRule ts f .unary (c + 1) with
        | ok a =>
          obtain ⟨e1, c1⟩ := a
          obtain ⟨hg1, hg2⟩ := hb1 e1 c1 hX
          obtain ⟨ho2, hb2, hn2⟩ := IH (Rule.factorLoop (Expr.Binary e0 t0 e1)) c1 hg2
          refine ⟨?_, ?_, ?_⟩
          · simpa only [runRule, hm, hprev, hX] using ho2
          · intro e c' h
            simp only [runRule, hm, hprev, hX] at h
            obtain ⟨j1, j2⟩ := hb2 e c' h
            exact ⟨by omega, j2⟩
          · intro hf
            simp only [runRule, hm, hprev, hX]
            refine hn2 ?_
            simp only [rank] at hf ⊢
            omega
        | err e1 =>
          refine ⟨?_, ?_, ?_⟩ <;> simp only [runRule, hm, hprev, hX] <;> simp
        | oob => exact absurd hX ho1
        | unwrapNone =>
          refine ⟨?_, ?_, ?_⟩ <;> simp only [runRule, hm, hprev, hX] <;> simp
        | nofuel =>
          refine ⟨?_, ?_, ?_⟩ <;> simp only [runRule, hm, hprev, hX]
          · simp
          · simp
          · intro hf
            exact absurd hX (hn1 (by simp only [rank] at hf ⊢; omega))
    | unary =>
      rcases matchTT_spec hE hc [TokenType.Bang, TokenType.Minus] with hm | ⟨hm, hclt⟩
      · obtain ⟨ho1, hb1, hn1⟩ := IH .primary c hc
        refine ⟨?_, ?_, ?_⟩
        · simpa only [runRule, hm] using ho1
        · intro e c' h
          simp only [runRule, hm] at h
          exact hb1 e c' h
        · intro hf
          simp only [runRule, hm]
          exact hn1 (by simp only [rank] at hf ⊢; omega)
      · obtain ⟨t0, hpk0, hget0⟩ := peekT_le hE (le_of_lt hclt)
        have hprev : previousT ts (c + 1) = some t0 := by rw [previousT_succ, hget0]
        obtain ⟨ho1, hb1, hn1⟩ := IH .unary (c + 1) (by omega)
        cases hX : runRule ts f .unary (c + 1) with
        | ok a =>
          obtain ⟨e1, c1⟩ := a
          obtain ⟨hg1, hg2⟩ := hb1 e1 c1 hX
          refine ⟨?_, ?_, ?_⟩ <;> simp only [runRule, hm, hprev, hX]
          · simp
          · intro e c' h
            simp only [POut.ok.injEq, Prod.mk.injEq] at h
            obtain ⟨-, h2⟩ := h
            exact ⟨by omega, by omega⟩
          · simp
        | err e1 =>
          refine ⟨?_, ?_, ?_⟩ <;> simp only [runRule, hm, hprev, hX] <;> simp
        | oob => exact absurd hX ho1
        | unwrapNone =>
          refine ⟨?_, ?_, ?_⟩ <;> simp only [runRule, hm, hprev, hX] <;> simp
        | nofuel =>
          refine ⟨?_, ?_, ?_⟩ <;> simp only [runRule, hm, hprev, hX]
          · simp
          · simp
          · intro hf
            exact absurd hX (hn1 (by simp only [rank] at hf ⊢; omega))
    | primary =>
      rcases matchTT_spec hE hc [TokenType.False] with hm1 | ⟨hm1, hclt1⟩
      · rcases matchTT_spec hE hc [TokenType.True] with hm2 | ⟨hm2, hclt2⟩
        · rcases matchTT_spec hE hc [TokenType.Nil] with hm3 | ⟨hm3, hclt3⟩
          · rcases matchTT_spec hE hc [TokenType.Number, TokenType.Str] with hm4 | ⟨hm4, hclt4⟩
            · rcases matchTT_spec hE hc [TokenType.LeftParen] with hm5 | ⟨hm5, hclt5⟩
              · obtain ⟨t0, hpk0, hget0⟩ := peekT_le hE hc
                refine ⟨?_, ?_, ?_⟩ <;> simp only [runRule, hm1, hm2, hm3, hm4, hm5, hpk0] <;> simp
              · obtain ⟨ho1, hb1, hn1⟩ := IH .expr (c + 1) (by omega)
                cases hX : runRule ts f .expr (c + 1) with
                | ok a =>
                  obtain ⟨e1, c1⟩ := a
                  obtain ⟨hg1, hg2⟩ := hb1 e1 c1 hX
                  rcases consumeT_spec hE hg2 TokenType.RightParen "Expected ')' after expression"
                    with ⟨pe, hcons⟩ | ⟨t2, c2, hcons, hj1, hj2⟩
                  · refine ⟨?_, ?_, ?_⟩ <;>
                      simp only [runRule, hm1, hm2, hm3, hm4, hm5, hX, hcons] <;> simp
                  · refine ⟨?_, ?_, ?_⟩ <;> simp only [runRule, hm1, hm2, hm3, hm4, hm5, hX, hcons]
                    · simp
                    · intro e c' h
                      simp only [POut.ok.injEq, Prod.mk.injEq] at h
                      obtain ⟨-, h2⟩ := h
                      exact ⟨by omega, by omega⟩
                    · simp
                | err e1 =>
                  refine ⟨?_, ?_, ?_⟩ <;> simp only [runRule, hm1, hm2, hm3, hm4, hm5, hX] <;> simp
                | oob => exact absurd hX ho1
                | unwrapNone =>
                  refine ⟨?_, ?_, ?_⟩ <;> simp only [runRule, hm1, hm2, hm3, hm4, hm5, hX] <;> simp
                | nofuel =>
                  refine ⟨?_, ?_, ?_⟩ <;> simp only [runRule, hm1, hm2, hm3, hm4, hm5, hX]
                  · simp
                  · simp
                  · intro hf
                    exact absurd hX (hn1 (by simp only [rank] at hf ⊢; omega))
            · obtain ⟨t0, hpk0, hget0⟩ := peekT_le hE (le_of_lt hclt4)
              have hprev : previousT ts (c + 1) = some t0 := by rw [previousT_succ, hget0]
              cases hLit : t0.literal with
              | some l =>
                refine ⟨?_, ?_, ?_⟩ <;> simp only [runRule, hm1, hm2, hm3, hm4, hprev, hLit]
                · simp
                · intro e c' h
                  simp only [POut.ok.injEq, Prod.mk.injEq] at h
                  obtain ⟨-, h2⟩ := h
                  exact ⟨by omega, by omega⟩
                · simp
              | none =>
                refine ⟨?_, ?_, ?_⟩ <;> simp only [runRule, hm1, hm2, hm3, hm4, hprev, hLit] <;> simp
          · refine ⟨?_, ?_, ?_⟩ <;> simp only [runRule, hm1, hm2, hm3]
            · simp
            · intro e c' h
              simp only [POut.ok.injEq, Prod.mk.injEq] at h
              obtain ⟨-, h2⟩ := h
              exact ⟨by omega, by omega⟩
            · simp
        · refine ⟨?_, ?_, ?_⟩ <;> simp only [runRule, hm1, hm2]
          · simp
          · intro e c' h
            simp only [POut.ok.injEq, Prod.mk.injEq] at h
            obtain ⟨-, h2⟩ := h
            exact ⟨by omega, by omega⟩
          · simp
      · refine ⟨?_, ?_, ?_⟩ <;> simp only [runRule, hm1]
        · simp
        · intro e c' h
          simp only [POut.ok.injEq, Prod.mk.injEq] at h
          obtain ⟨-, h2⟩ := h
          exact ⟨by omega, by omega⟩
        · simp

/-- An EOF-terminated token list has a first `EOF` sentinel. -/
lemma exists_firstEof {ts : List Token} {tl : Token}
    (hlast : ts.getLast? = some tl) (heof : tl.token = TokenType.EOF) :
    ∃ E, firstEofAt ts E := by
  classical
  have hne : ∃ i : Nat, ∃ t : Token, ts[i]? = some t ∧ t.token = TokenType.EOF :=
    ⟨ts.length - 1, tl, by rwa [← List.getLast?_eq_getElem?], heof⟩
  refine ⟨Nat.find hne, Nat.find_spec hne, ?_⟩
  intro i t hi ht hteof
  exact Nat.find_min hne hi ⟨t, ht, hteof⟩

/-- Claim C9 (confirmed): over any EOF-terminated token sequence, `parse`
never performs an out-of-bounds cursor access (`peek` past the end, or
`previous` with `current = 0`), the embedding's fuel never runs out, and
the cursor never moves past the first `EOF` sentinel. -/
theorem c9_parser_cursor_safety (ts : List Token) (tl : Token)
    (hlast : ts.getLast? = some tl) (heof : tl.token = TokenType.EOF) :
    parse ts ≠ POut.oob
  ∧ parse ts ≠ POut.nofuel
  ∧ ∀ E, firstEofAt ts E →
      ∀ e c', runRule ts (12 * ts.length + 13) .expr 0 = .ok (e, c') → c' ≤ E := by
  obtain ⟨E0, hE0⟩ := exists_firstEof hlast heof
  have hlen := eof_lt_length hE0
  obtain ⟨ho, hb, hn⟩ := runRule_safe ts E0 hE0 (12 * ts.length + 13) .expr 0 (by omega)
  have hnf : runRule ts (12 * ts.length + 13) .expr 0 ≠ .nofuel :=
    hn (by simp only [rank]; omega)
  refine ⟨?_, ?_, fun E hE e c' h => ?_⟩
  · unfold parse
    cases hX : runRule ts (12 * ts.length + 13) .expr 0 with
    | ok a => obtain ⟨e, c'⟩ := a; simp
    | err e => simp
    | oob => exact absurd hX ho
    | unwrapNone => simp
    | nofuel => simp
  · unfold parse
    cases hX : runRule ts (12 * ts.length + 13) .expr 0 with
    | ok a => obtain ⟨e, c'⟩ := a; simp
    | err e => simp
    | oob => simp
    | unwrapNone => simp
    | nofuel => exact absurd hX hnf
  · obtain ⟨-, hb2, -⟩ := runRule_safe ts E hE (12 * ts.length + 13) .expr 0 (by omega)
    exact (hb2 e c' h).2

/-- Witness for C9 at the minimal EOF-terminated sequence. -/
theorem c9_parser_cursor_safety_witness :
    (([{ token := TokenType.EOF, line := 1, lexeme := eofLexeme, literal := none }] :
        List Token).getLast? =
      some { token := TokenType.EOF, line := 1, lexeme := eofLexeme, literal := none })
  ∧ ({ token := TokenType.EOF, line := 1, lexeme := eofLexeme,
        literal := none } : Token).token = TokenType.EOF
  ∧ parse [{ token := TokenType.EOF, line := 1, lexeme := eofLexeme, literal := none }] ≠
      POut.oob :=
  ⟨rfl, rfl,
   (c9_parser_cursor_safety
     [{ token := TokenType.EOF, line := 1, lexeme := eofLexeme, literal := none }]
     { token := TokenType.EOF, line := 1, lexeme := eofLexeme, literal := none }
     rfl rfl).1⟩
